import Mathlib

/-!
Verification of the penman role-model core (`penman/model.py`) and of the
tokenizer interface described by the package documentation.

The role model (`Model` below) is a shallow embedding of the Python class
`penman.model.Model`: identifiers, roles and constants are opaque strings,
triples are string triples, and every method of the class becomes a total
Lean function on a `Model` value.  The tokenizer (`tokenize` below) is
modelled from the documentation because `penman/lexer.py` is not part of
the sources at hand, only its tests are.
-/

/-- Graph-node identifier (`penman.types.Identifier`): an opaque string. -/
abbrev Identifier := String

/-- Edge label (`penman.types.Role`): an opaque string, conventionally
starting with a colon. -/
abbrev Role := String

/-- Atomic constant (`penman.types.Constant`): kept as its surface string,
never parsed further by the core. -/
abbrev Constant := String

/-- A triple `(source, role, target)` (`penman.types.BasicTriple`). -/
abbrev BasicTriple := Identifier × Role × Constant

/-- Errors raised by the Python code paths that this embedding covers:
`penman.exceptions.ModelError` carrying its message, and Python's
`StopIteration` (raised by `next` on an empty iterator, an unreachable
case for models built by the constructor). -/
inductive PenmanError where
  | modelError (msg : String)
  | stopIteration
  deriving DecidableEq, Repr

/-- The inversion suffix used throughout `penman/model.py` (the literal
`'-of'`). -/
def inversionSuffix : String := "-of"

/-- Boolean form of Python `role.endswith('-of')`. -/
def endsOf (s : String) : Bool := decide (inversionSuffix.data <:+ s.data)

/-- Python `role[:-3]`, as used under an `endswith('-of')` guard: drop the
final three characters. -/
def stripOf (s : String) : String := ⟨s.data.take (s.data.length - 3)⟩

/-- Boolean form of Python `role.startswith(':')`. -/
def startsColon (s : String) : Bool :=
  match s.data with
  | [] => false
  | c :: _ => c == ':'

/-- Python `':' + role if not role.startswith(':') else role`
(the first step of `Model.canonicalize_role`). -/
def ensureColon (s : String) : String := if startsColon s then s else ":" ++ s

/-- One step of building the reification table: `reifs[role].append(v)`
on a `defaultdict(list)` represented as an association list whose keys
appear in first-insertion order. -/
def addReif (acc : List (Role × List (Constant × Role × Role)))
    (role : Role) (v : Constant × Role × Role) :
    List (Role × List (Constant × Role × Role)) :=
  match acc with
  | [] => [(role, [v])]
  | (k, vs) :: rest =>
    if k = role then (k, vs ++ [v]) :: rest else (k, vs) :: addReif rest role v

/-- The reification-table construction loop of `Model.__init__`:
`for role, label, source, target in reifications: reifs[role].append((label, source, target))`. -/
def buildReifs (l : List (Role × Constant × Role × Role)) :
    List (Role × List (Constant × Role × Role)) :=
  l.foldl (fun acc q => addReif acc q.1 q.2) []

/-- The first reification rule registered for a role in the raw
`reifications` argument of the constructor: the `(label, source, target)`
part of the first 4-tuple whose role field equals the given role. -/
def firstRule (l : List (Role × Constant × Role × Role)) (r : Role) :
    Option (Constant × Role × Role) :=
  ((l.filter (fun q => q.1 == r)).head?).map (fun q => q.2)

/-- The state of a `penman.model.Model` instance after `__init__`:
`top_identifier`, `top_role`, `nodetype_role`, the keys of the `roles`
mapping (the associated metadata is opaque and never consulted by any
method other than `__eq__`), the `normalizations` mapping and the grouped
`reifications` table.  Mappings are association lists with unique keys,
matching Python dicts. -/
structure Model where
  top_identifier : Identifier
  top_role : Role
  nodetype_role : Role
  roles : List Role
  normalizations : List (Role × Role)
  reifications : List (Role × List (Constant × Role × Role))
  deriving DecidableEq, Repr

/-- `Model.__init__`: store the configuration and group the reification
4-tuples by role. -/
def mkModel (ti : Identifier) (tr nr : Role) (roles : List Role)
    (norms : List (Role × Role)) (reifs : List (Role × Constant × Role × Role)) :
    Model :=
  ⟨ti, tr, nr, roles, norms, buildReifs reifs⟩

/-- The model built by `Model()` with its documented defaults
(`top`, `:TOP`, `:instance`, empty mappings). -/
def defaultModel : Model := mkModel ("top") (":TOP") (":instance") [] [] []

/-- The alternatives of the compiled pattern `_role_re`:
`list(self.roles) + [top_role, nodetype_role]`. -/
def Model.knownRoles (m : Model) : List Role :=
  m.roles ++ [m.top_role, m.nodetype_role]

/-- `Model._has_role`: `self._role_re.match(role) is not None`.  The
pattern is the anchored alternation `^(r1|...|rn|top|nodetype)$` over the
known roles; for role strings that are regex-literal (no metacharacters),
matching it is exact membership in the alternatives, which is how the
embedding states it. -/
def Model.hasRoleExact (m : Model) (r : Role) : Bool :=
  decide (r ∈ m.knownRoles)

/-- `Model.has_role`: exact knownness, or the inversion suffix plus exact
knownness of the stripped role. -/
def Model.has_role (m : Model) (r : Role) : Bool :=
  m.hasRoleExact r || (endsOf r && m.hasRoleExact (stripOf r))

/-- `Model.is_role_inverted`: `not self._has_role(role) and role.endswith('-of')`. -/
def Model.is_role_inverted (m : Model) (r : Role) : Bool :=
  !m.hasRoleExact r && endsOf r

/-- `Model.invert_role`: strip the suffix when the role is not exactly
known and carries it, otherwise append the suffix. -/
def Model.invert_role (m : Model) (r : Role) : Role :=
  if !m.hasRoleExact r && endsOf r then stripOf r else r ++ inversionSuffix

/-- `Model.invert`: destructure the triple, swap source and target and
invert the role. -/
def Model.invert (m : Model) : BasicTriple → BasicTriple
  | (source, role, target) => (target, m.invert_role role, source)

/-- `Model.deinvert`: invert only when the role is inverted. -/
def Model.deinvert (m : Model) (t : BasicTriple) : BasicTriple :=
  if m.is_role_inverted t.2.1 then m.invert t else t

/-- The body of the `while` loop of `Model._canonicalize_inversion`:
`role = invert(invert(role))`. -/
def Model.canonStep (m : Model) (r : Role) : Role :=
  m.invert_role (m.invert_role r)

/-- The `while` loop of `Model._canonicalize_inversion`, run with explicit
fuel: repeat `role = invert(invert(role))` until a pass leaves the role
unchanged, then return it.  `canonFuel` below is proven large enough for
the loop to reach its fixed point, so the fuel cap is never the reason
the loop stops. -/
def Model.canonLoop (m : Model) : Nat → Role → Role
  | 0, r => r
  | n + 1, r =>
    let r' := m.canonStep r
    if r' = r then r else m.canonLoop n r'

/-- Fuel that dominates the number of iterations of the canonicalization
loop (proved in `canonLoop_reaches_fixed`). -/
def Model.canonFuel (m : Model) (r : Role) : Nat :=
  r.data.length + m.knownRoles.length + 1

/-- `Model._canonicalize_inversion`: run the double-inversion loop, but
only when the role is not exactly known. -/
def Model.canonicalizeInversion (m : Model) (r : Role) : Role :=
  if m.hasRoleExact r then r else m.canonLoop (m.canonFuel r) r

/-- `Model.canonicalize_role`: ensure the colon, collapse stacked
inversions, then apply the normalization mapping once
(`self.normalizations.get(role, role)`). -/
def Model.canonicalize_role (m : Model) (r : Role) : Role :=
  match List.lookup (m.canonicalizeInversion (ensureColon r)) m.normalizations with
  | some v => v
  | none => m.canonicalizeInversion (ensureColon r)

/-- `Model.canonicalize`: canonicalize only the role of a triple. -/
def Model.canonicalize (m : Model) : BasicTriple → BasicTriple
  | (source, role, target) => (source, m.canonicalize_role role, target)

/-- `Model.is_reifiable`: `triple[1] in self.reifications`. -/
def Model.is_reifiable (m : Model) (t : BasicTriple) : Bool :=
  (List.lookup t.2.1 m.reifications).isSome

/-- `Model.reify`: raise `ModelError` when the role is not a key of the
reification table, otherwise expand the triple with the first rule of the
role's rule list and the fixed placeholder identifier `'_'`. -/
def Model.reify (m : Model) : BasicTriple → Except PenmanError (List BasicTriple)
  | (source, role, target) =>
    match List.lookup role m.reifications with
    | none => .error (.modelError ("'" ++ role ++ "' cannot be reified"))
    | some [] => .error .stopIteration
    | some ((label, source_role, target_role) :: _) =>
      .ok [(source, m.invert_role source_role, "_"),
           ("_", m.nodetype_role, label),
           ("_", target_role, target)]

section StatePassing

/-!
State-passing forms of every query/transform method.  A Python method may
mutate its instance; each wrapper therefore returns the method's result
together with the post-state of the instance.  None of the method bodies
in `penman/model.py` assigns to an attribute of `self` (only `__init__`
does), so each post-state below is the untouched model — including the
`reify` error path, where the `ModelError` is raised before anything else
happens and no attribute write exists on any path.
-/

/-- State-passing `has_role`. -/
def Model.has_roleS (m : Model) (r : Role) : Bool × Model := (m.has_role r, m)

/-- State-passing `is_role_inverted`. -/
def Model.is_role_invertedS (m : Model) (r : Role) : Bool × Model :=
  (m.is_role_inverted r, m)

/-- State-passing `invert_role`. -/
def Model.invert_roleS (m : Model) (r : Role) : Role × Model :=
  (m.invert_role r, m)

/-- State-passing `invert`. -/
def Model.invertS (m : Model) (t : BasicTriple) : BasicTriple × Model :=
  (m.invert t, m)

/-- State-passing `deinvert`. -/
def Model.deinvertS (m : Model) (t : BasicTriple) : BasicTriple × Model :=
  (m.deinvert t, m)

/-- State-passing `canonicalize_role`. -/
def Model.canonicalize_roleS (m : Model) (r : Role) : Role × Model :=
  (m.canonicalize_role r, m)

/-- State-passing `canonicalize`. -/
def Model.canonicalizeS (m : Model) (t : BasicTriple) : BasicTriple × Model :=
  (m.canonicalize t, m)

/-- State-passing `is_reifiable`. -/
def Model.is_reifiableS (m : Model) (t : BasicTriple) : Bool × Model :=
  (m.is_reifiable t, m)

/-- State-passing `reify`; the post-state is the same on the success and
on the error path. -/
def Model.reifyS (m : Model) (t : BasicTriple) :
    Except PenmanError (List BasicTriple) × Model :=
  (m.reify t, m)

end StatePassing

/-- A model used as a concrete counterexample: one registered role and a
chained normalization table. -/
def chainNormModel : Model :=
  mkModel ("top") (":TOP") (":instance") [":a"]
    [(":a", ":b"), (":b", ":c")] []

/-- A model used as a concrete witness for reification: two rules
registered for the same role `:r`. -/
def reifModel : Model :=
  mkModel ("top") (":TOP") (":instance") [] []
    [(":r", "lab", ":s", ":t"), (":r", "lab2", ":s2", ":t2")]

/-- Modelled from the spec: the token type tags of the two lexical
grammars of `penman/lexer.py` (missing from the sources; only its tests
are present). -/
inductive TokenType where
  | LPAREN | RPAREN | SLASH | ROLE | SYMBOL | STRING | INTEGER | FLOAT
  | ALIGNMENT | COMMA | CARET
  deriving DecidableEq, Repr

/-- Modelled from the spec: a token record of the missing
`penman/lexer.py` — type tag, raw value as matched, and a source span
(line, column, end column). -/
structure Token where
  type : TokenType
  value : String
  line : Nat
  col : Nat
  endcol : Nat
  deriving DecidableEq, Repr

/-- Modelled from the spec: the error conditions of the missing
tokenizer — a character matching no grammar alternative, reported with
its position; `fuelExhausted` marks exhaustion of the explicit recursion
fuel and is unreachable because the scanner consumes at least one
character per step. -/
inductive LexError where
  | unexpectedChar (line col : Nat) (c : Char)
  | fuelExhausted
  deriving DecidableEq, Repr

/-- Modelled from the spec: the grammar selector of the missing
tokenizer — graph notation (the default) or triple notation. -/
inductive LexGrammar where
  | penman | triples
  deriving DecidableEq, Repr

/-- Modelled from the spec: whitespace between tokens, discarded by the
missing tokenizer. -/
def isWsChar (c : Char) : Bool :=
  c == ' ' || c == '\t' || c == '\n' || c == '\r'

/-- Modelled from the spec: the identifier-like characters of bare
symbols in the missing tokenizer — anything except whitespace and the
structural characters. -/
def isSymChar (c : Char) : Bool :=
  !(isWsChar c || c == '(' || c == ')' || c == '/' || c == ':' ||
    c == '~' || c == ',' || c == '^' || c == '"')

/-- Modelled from the spec: the characters allowed after `~` in an
alignment marker of the missing tokenizer (identifier, number, dot,
comma composites such as `~e.1,2`). -/
def isAlignChar (c : Char) : Bool :=
  c.isAlphanum || c == '.' || c == ','

/-- Modelled from the spec: the numeric literals of the missing
tokenizer.  Matches an optional sign, an integer part, an optional
fraction and an optional exponent; returns whether the match is a float
(fraction or exponent present), the matched characters, and the rest.
Fails when no digit is present, so that symbol matching can take over. -/
def matchNumber (cs : List Char) : Option (Bool × List Char × List Char) :=
  let (sign, cs1) :=
    match cs with
    | c :: rest => if c == '-' || c == '+' then ([c], rest) else (([] : List Char), cs)
    | [] => ([], [])
  let (ip, cs2) := cs1.span Char.isDigit
  let (fp, cs3) :=
    match cs2 with
    | '.' :: rest =>
      let (ds, r) := rest.span Char.isDigit
      ('.' :: ds, r)
    | _ => (([] : List Char), cs2)
  if ip.isEmpty && fp.length ≤ 1 then none
  else
    let (ex, cs4) :=
      match cs3 with
      | e :: rest =>
        if e == 'e' || e == 'E' then
          let (es, rest1) :=
            match rest with
            | s :: r2 => if s == '-' || s == '+' then ([s], r2) else (([] : List Char), rest)
            | [] => ([], [])
          let (ed, rest2) := rest1.span Char.isDigit
          if ed.isEmpty then (([] : List Char), cs3) else (e :: es ++ ed, rest2)
        else ([], cs3)
      | [] => ([], cs3)
    some (!fp.isEmpty || !ex.isEmpty, sign ++ ip ++ fp ++ ex, cs4)

/-- Modelled from the spec: the body scanner for double-quoted string
literals of the missing tokenizer; backslash escapes are passed through
uninterpreted.  Returns the matched characters (closing quote included)
and the rest, or nothing when no closing quote exists. -/
def scanStrBody (acc : List Char) : List Char → Option (List Char × List Char)
  | [] => none
  | '\\' :: c :: rest => scanStrBody (acc ++ ['\\', c]) rest
  | '"' :: rest => some (acc ++ ['"'], rest)
  | c :: rest => scanStrBody (acc ++ [c]) rest

/-- Modelled from the spec: the priority-ordered token matcher of the
missing tokenizer, one alternation per grammar, applied at a non-space
cursor position.  Returns the token type, the matched characters and the
rest of the input, or nothing on a lexical error. -/
def matchToken (g : LexGrammar) (cs : List Char) :
    Option (TokenType × List Char × List Char) :=
  match g, cs with
  | _, [] => none
  | .penman, '(' :: rest => some (.LPAREN, ['('], rest)
  | .penman, ')' :: rest => some (.RPAREN, [')'], rest)
  | .penman, '/' :: rest => some (.SLASH, ['/'], rest)
  | .penman, ':' :: rest =>
    let (ls, r) := rest.span isSymChar
    some (.ROLE, ':' :: ls, r)
  | .penman, '"' :: rest =>
    (scanStrBody ['"'] rest).map (fun p => (.STRING, p.1, p.2))
  | .penman, '~' :: rest =>
    let (ls, r) := rest.span isAlignChar
    some (.ALIGNMENT, '~' :: ls, r)
  | .penman, c :: rest =>
    match matchNumber (c :: rest) with
    | some (isF, v, r) => some (if isF then .FLOAT else .INTEGER, v, r)
    | none =>
      let (ls, r) := (c :: rest).span isSymChar
      if ls.isEmpty then none else some (.SYMBOL, ls, r)
  | .triples, '(' :: rest => some (.LPAREN, ['('], rest)
  | .triples, ')' :: rest => some (.RPAREN, [')'], rest)
  | .triples, ',' :: rest => some (.COMMA, [','], rest)
  | .triples, '^' :: rest => some (.CARET, ['^'], rest)
  | .triples, '"' :: rest =>
    (scanStrBody ['"'] rest).map (fun p => (.STRING, p.1, p.2))
  | .triples, c :: rest =>
    match matchNumber (c :: rest) with
    | some (isF, v, r) => some (if isF then .FLOAT else .INTEGER, v, r)
    | none =>
      let (ls, r) := (c :: rest).span isSymChar
      if ls.isEmpty then none else some (.SYMBOL, ls, r)

/-- Modelled from the spec: the scanning loop of the missing tokenizer.
Skips whitespace (tracking line and column), emits one token per
successful match, and reports a lexical error with position when no
alternative matches.  The fuel argument bounds the recursion and is set
to the input length by `lexStr`, which suffices because every step
consumes at least one character. -/
def lexLoop (g : LexGrammar) : Nat → Nat → Nat → List Char →
    Except LexError (List Token)
  | _, _, _, [] => .ok []
  | 0, _, _, _ :: _ => .error .fuelExhausted
  | fuel + 1, line, col, c :: rest =>
    if c == '\n' then lexLoop g fuel (line + 1) 0 rest
    else if isWsChar c then lexLoop g fuel line (col + 1) rest
    else
      match matchToken g (c :: rest) with
      | none => .error (.unexpectedChar line col c)
      | some (tt, v, rest') =>
        match lexLoop g fuel line (col + v.length) rest' with
        | .error e => .error e
        | .ok toks => .ok (⟨tt, ⟨v⟩, line, col, col + v.length⟩ :: toks)

/-- Modelled from the spec: tokenizing one string with the missing
tokenizer, under the selected grammar. -/
def lexStr (g : LexGrammar) (s : String) : Except LexError (List Token) :=
  lexLoop g s.data.length 1 0 s.data

/-- Modelled from the spec: the two source forms accepted by the missing
tokenizer entry point — a single string, or a sequence of lines. -/
inductive LexSource where
  | str (s : String)
  | lines (ls : List String)

/-- Modelled from the spec: lines supplied as a sequence are treated as
joined by a single newline between each pair. -/
def joinSource : LexSource → String
  | .str s => s
  | .lines ls => String.intercalate "\n" ls

/-- Modelled from the spec: the tokenizer entry point of the missing
`penman/lexer.py` — tokenize a string or a sequence of lines under the
selected grammar. -/
def tokenize (src : LexSource) (g : LexGrammar) : Except LexError (List Token) :=
  lexStr g (joinSource src)

/-- Verification auxiliary: the number of known roles strictly longer
than `n` characters.  This quantity shrinks whenever the
double-inversion loop grows its role, which bounds the loop. -/
def Wcount (m : Model) (n : Nat) : Nat :=
  (m.knownRoles.filter (fun k => decide (n < k.data.length))).length

/- ------------------------------------------------------------------ -/
/- Lemmas about the suffix arithmetic of roles.                        -/
/- ------------------------------------------------------------------ -/

theorem endsOf_iff (s : String) :
    endsOf s = true ↔ ∃ t, s.data = t ++ ['-', 'o', 'f'] := by
  constructor
  · intro h
    have h' : inversionSuffix.data <:+ s.data := by
      simpa [endsOf] using h
    obtain ⟨t, ht⟩ := h'
    exact ⟨t, ht.symm⟩
  · rintro ⟨t, ht⟩
    have h' : inversionSuffix.data <:+ s.data := ⟨t, ht.symm⟩
    simpa [endsOf] using h'

theorem endsOf_append (s : String) : endsOf (s ++ inversionSuffix) = true := by
  rw [endsOf_iff]
  exact ⟨s.data, by simp [String.data_append, inversionSuffix]⟩

theorem stripOf_append (s : String) : stripOf (s ++ inversionSuffix) = s := by
  apply String.ext
  show ((s ++ inversionSuffix).data.take ((s ++ inversionSuffix).data.length - 3)) = s.data
  rw [String.data_append]
  have h3 : (inversionSuffix.data : List Char) = ['-', 'o', 'f'] := rfl
  rw [h3]
  simp only [List.length_append, List.length_cons, List.length_nil]
  have : s.data.length + (0 + 1 + 1 + 1) - 3 = s.data.length := by omega
  rw [this]
  exact List.take_left s.data _

theorem stripOf_append_sfx (s : String) (h : endsOf s = true) :
    stripOf s ++ inversionSuffix = s := by
  obtain ⟨t, ht⟩ := (endsOf_iff s).mp h
  have hs : s = String.mk t ++ inversionSuffix := by
    apply String.ext
    rw [String.data_append, ht]
    rfl
  rw [hs, stripOf_append]

theorem length_append_sfx (s : String) :
    (s ++ inversionSuffix).data.length = s.data.length + 3 := by
  rw [String.data_append]
  simp [inversionSuffix]

theorem length_stripOf (s : String) (h : endsOf s = true) :
    (stripOf s).data.length + 3 = s.data.length := by
  conv_rhs => rw [← stripOf_append_sfx s h]
  rw [length_append_sfx]

theorem append_sfx_ne (s : String) : s ++ inversionSuffix ≠ s := by
  intro h
  have := congrArg (fun u : String => u.data.length) h
  simp only [length_append_sfx] at this
  omega

/- ------------------------------------------------------------------ -/
/- Case analysis of `invert_role` and of the double-inversion step.    -/
/- ------------------------------------------------------------------ -/

theorem invert_role_of_inverted (m : Model) (r : Role)
    (h : m.is_role_inverted r = true) : m.invert_role r = stripOf r := by
  unfold Model.invert_role
  unfold Model.is_role_inverted at h
  rw [h]
  simp

theorem invert_role_of_not_inverted (m : Model) (r : Role)
    (h : m.is_role_inverted r = false) :
    m.invert_role r = r ++ inversionSuffix := by
  unfold Model.invert_role
  unfold Model.is_role_inverted at h
  rw [h]
  simp

theorem is_role_inverted_append_of_has (m : Model) (r : Role)
    (h : m.hasRoleExact (r ++ inversionSuffix) = true) :
    m.is_role_inverted (r ++ inversionSuffix) = false := by
  unfold Model.is_role_inverted
  rw [h]
  rfl

theorem is_role_inverted_append_of_not_has (m : Model) (r : Role)
    (h : m.hasRoleExact (r ++ inversionSuffix) = false) :
    m.is_role_inverted (r ++ inversionSuffix) = true := by
  unfold Model.is_role_inverted
  rw [h, endsOf_append]
  rfl

theorem canonStep_caseA (m : Model) (r : Role)
    (h1 : m.is_role_inverted r = true)
    (h2 : m.is_role_inverted (stripOf r) = true) :
    m.canonStep r = stripOf (stripOf r) := by
  unfold Model.canonStep
  rw [invert_role_of_inverted m r h1, invert_role_of_inverted m _ h2]

theorem canonStep_caseB (m : Model) (r : Role)
    (h1 : m.is_role_inverted r = true)
    (h2 : m.is_role_inverted (stripOf r) = false) :
    m.canonStep r = r := by
  unfold Model.canonStep
  rw [invert_role_of_inverted m r h1, invert_role_of_not_inverted m _ h2]
  have hr : endsOf r = true := by
    unfold Model.is_role_inverted at h1
    exact (Bool.and_eq_true _ _).mp h1 |>.2
  exact stripOf_append_sfx r hr

theorem canonStep_caseC (m : Model) (r : Role)
    (h1 : m.is_role_inverted r = false)
    (h2 : m.hasRoleExact (r ++ inversionSuffix) = false) :
    m.canonStep r = r := by
  unfold Model.canonStep
  rw [invert_role_of_not_inverted m r h1,
    invert_role_of_inverted m _ (is_role_inverted_append_of_not_has m r h2),
    stripOf_append]

theorem canonStep_caseD (m : Model) (r : Role)
    (h1 : m.is_role_inverted r = false)
    (h2 : m.hasRoleExact (r ++ inversionSuffix) = true) :
    m.canonStep r = r ++ inversionSuffix ++ inversionSuffix := by
  unfold Model.canonStep
  rw [invert_role_of_not_inverted m r h1,
    invert_role_of_not_inverted m _ (is_role_inverted_append_of_has m r h2)]

theorem canonStep_cases (m : Model) (r : Role) (h : m.canonStep r ≠ r) :
    (m.is_role_inverted r = true ∧ m.is_role_inverted (stripOf r) = true)
    ∨ (m.is_role_inverted r = false ∧ m.hasRoleExact (r ++ inversionSuffix) = true) := by
  cases h1 : m.is_role_inverted r with
  | true =>
    cases h2 : m.is_role_inverted (stripOf r) with
    | true => exact Or.inl ⟨rfl, rfl⟩
    | false => exact absurd (canonStep_caseB m r h1 h2) h
  | false =>
    cases h2 : m.hasRoleExact (r ++ inversionSuffix) with
    | true => exact Or.inr ⟨rfl, rfl⟩
    | false => exact absurd (canonStep_caseC m r h1 h2) h

/- ------------------------------------------------------------------ -/
/- Counting lemmas for the termination measure.                        -/
/- ------------------------------------------------------------------ -/

theorem filter_length_mono {α : Type} (l : List α) (p q : α → Bool)
    (hpq : ∀ a, q a = true → p a = true) :
    (l.filter q).length ≤ (l.filter p).length := by
  induction l with
  | nil => simp
  | cons a l ih =>
    by_cases hq : q a = true
    · rw [List.filter_cons_of_pos hq, List.filter_cons_of_pos (hpq a hq)]
      simpa using ih
    · rw [List.filter_cons_of_neg (by simpa using hq)]
      by_cases hp : p a = true
      · rw [List.filter_cons_of_pos hp]
        exact Nat.le_trans ih (by simp)
      · rw [List.filter_cons_of_neg (by simpa using hp)]
        exact ih

theorem filter_length_strict {α : Type} (l : List α) (p q : α → Bool)
    (hpq : ∀ a, q a = true → p a = true)
    (x : α) (hx : x ∈ l) (hp : p x = true) (hq : q x = false) :
    (l.filter q).length < (l.filter p).length := by
  induction l with
  | nil => cases hx
  | cons a l ih =>
    rcases List.mem_cons.mp hx with hxa | hxl
    · subst hxa
      rw [List.filter_cons_of_pos hp, List.filter_cons_of_neg (by simp [hq])]
      exact Nat.lt_succ_of_le (filter_length_mono l p q hpq)
    · by_cases hqa : q a = true
      · rw [List.filter_cons_of_pos hqa, List.filter_cons_of_pos (hpq a hqa)]
        simpa using ih hxl
      · rw [List.filter_cons_of_neg (by simpa using hqa)]
        by_cases hpa : p a = true
        · rw [List.filter_cons_of_pos hpa]
          exact Nat.lt_succ_of_lt (ih hxl)
        · rw [List.filter_cons_of_neg (by simpa using hpa)]
          exact ih hxl

theorem Wcount_le (m : Model) (n : Nat) : Wcount m n ≤ m.knownRoles.length :=
  List.length_filter_le _ _

theorem Wcount_caseD (m : Model) (r : Role)
    (h : m.hasRoleExact (r ++ inversionSuffix) = true) :
    Wcount m (r.data.length + 6) < Wcount m r.data.length := by
  unfold Wcount
  apply filter_length_strict (x := r ++ inversionSuffix)
  · intro a ha
    simp only [decide_eq_true_eq] at ha ⊢
    omega
  · unfold Model.hasRoleExact at h
    simpa using h
  · simp only [decide_eq_true_eq, length_append_sfx]
    omega
  · simp only [length_append_sfx]
    simp only [decide_eq_false_iff_not]
    omega

/- ------------------------------------------------------------------ -/
/- Termination of the double-inversion loop.                           -/
/- ------------------------------------------------------------------ -/

theorem fixed_or_caseD_step (m : Model) (r : Role)
    (h2 : m.hasRoleExact (r ++ inversionSuffix) = true) :
    m.canonStep (r ++ inversionSuffix ++ inversionSuffix) =
      r ++ inversionSuffix ++ inversionSuffix
    ∨ (m.is_role_inverted (r ++ inversionSuffix ++ inversionSuffix) = false
       ∧ m.hasRoleExact (r ++ inversionSuffix ++ inversionSuffix ++ inversionSuffix) = true) := by
  set s := r ++ inversionSuffix ++ inversionSuffix with hs
  cases hinv : m.is_role_inverted s with
  | true =>
    left
    apply canonStep_caseB m s hinv
    have : stripOf s = r ++ inversionSuffix := by
      rw [hs, stripOf_append]
    rw [this]
    exact is_role_inverted_append_of_has m r h2
  | false =>
    cases hh : m.hasRoleExact (s ++ inversionSuffix) with
    | true => exact Or.inr ⟨rfl, rfl⟩
    | false => exact Or.inl (canonStep_caseC m s hinv hh)

theorem fixed_iterate_of_phase2 (m : Model) :
    ∀ (w : Nat) (r : Role), Wcount m r.data.length ≤ w →
    (m.canonStep r = r
     ∨ (m.is_role_inverted r = false ∧ m.hasRoleExact (r ++ inversionSuffix) = true)) →
    ∃ k, k ≤ w ∧ m.canonStep (m.canonStep^[k] r) = m.canonStep^[k] r := by
  intro w
  induction w with
  | zero =>
    intro r hw hcase
    rcases hcase with hfix | ⟨h1, h2⟩
    · exact ⟨0, Nat.le_refl 0, by simpa using hfix⟩
    · exfalso
      have hlt := Wcount_caseD m r h2
      omega
  | succ w ih =>
    intro r hw hcase
    rcases hcase with hfix | ⟨h1, h2⟩
    · exact ⟨0, Nat.zero_le _, by simpa using hfix⟩
    · have hstep : m.canonStep r = r ++ inversionSuffix ++ inversionSuffix :=
        canonStep_caseD m r h1 h2
      have hlen : (r ++ inversionSuffix ++ inversionSuffix).data.length =
          r.data.length + 6 := by
        rw [length_append_sfx, length_append_sfx]
      have hWnext : Wcount m (r ++ inversionSuffix ++ inversionSuffix).data.length ≤ w := by
        rw [hlen]
        have := Wcount_caseD m r h2
        omega
      obtain ⟨k, hk, hfix⟩ :=
        ih (r ++ inversionSuffix ++ inversionSuffix) hWnext (fixed_or_caseD_step m r h2)
      refine ⟨k + 1, by omega, ?_⟩
      rw [Function.iterate_succ_apply, hstep]
      exact hfix

theorem reaches_fixed_bound (m : Model) :
    ∀ (L : Nat) (r : Role), r.data.length ≤ L →
    ∃ k, k ≤ L + m.knownRoles.length ∧
      m.canonStep (m.canonStep^[k] r) = m.canonStep^[k] r := by
  intro L
  induction L using Nat.strong_induction_on with
  | _ L ihL =>
    intro r hr
    by_cases hfix : m.canonStep r = r
    · exact ⟨0, Nat.zero_le _, by simpa using hfix⟩
    · rcases canonStep_cases m r hfix with ⟨h1, h2⟩ | ⟨h1, h2⟩
      · -- case A: both the role and its stripped form are inverted,
        -- the step removes six characters
        have he1 : endsOf r = true := by
          unfold Model.is_role_inverted at h1
          exact (Bool.and_eq_true _ _).mp h1 |>.2
        have he2 : endsOf (stripOf r) = true := by
          unfold Model.is_role_inverted at h2
          exact (Bool.and_eq_true _ _).mp h2 |>.2
        have hstep : m.canonStep r = stripOf (stripOf r) := canonStep_caseA m r h1 h2
        have hl1 := length_stripOf r he1
        have hl2 := length_stripOf (stripOf r) he2
        have hrlen : r.data.length = (stripOf (stripOf r)).data.length + 6 := by omega
        have hL6 : 6 ≤ L := by omega
        obtain ⟨k, hk, hfixk⟩ := ihL (L - 6) (by omega) (stripOf (stripOf r)) (by omega)
        refine ⟨k + 1, by omega, ?_⟩
        rw [Function.iterate_succ_apply, hstep]
        exact hfixk
      · -- case D: the step appends six characters and the phase-two
        -- argument applies directly
        obtain ⟨k, hk, hfixk⟩ :=
          fixed_iterate_of_phase2 m (Wcount m r.data.length) r (Nat.le_refl _)
            (Or.inr ⟨h1, h2⟩)
        have := Wcount_le m r.data.length
        exact ⟨k, by omega, hfixk⟩

/- ------------------------------------------------------------------ -/
/- The fuelled loop realizes the fixed point.                          -/
/- ------------------------------------------------------------------ -/

theorem canonLoop_of_fixed (m : Model) (r : Role) (h : m.canonStep r = r) :
    ∀ n, m.canonLoop n r = r := by
  intro n
  cases n with
  | zero => rfl
  | succ n =>
    unfold Model.canonLoop
    simp [h]

theorem canonLoop_fixed_result (m : Model) :
    ∀ (n k : Nat) (r : Role), k ≤ n →
    m.canonStep (m.canonStep^[k] r) = m.canonStep^[k] r →
    m.canonStep (m.canonLoop n r) = m.canonLoop n r := by
  intro n
  induction n with
  | zero =>
    intro k r hk hfix
    have : k = 0 := by omega
    subst this
    simpa using hfix
  | succ n ih =>
    intro k r hk hfix
    unfold Model.canonLoop
    by_cases hstep : m.canonStep r = r
    · simp [hstep]
    · simp only [hstep, if_false]
      cases k with
      | zero => exact absurd (by simpa using hfix) hstep
      | succ k =>
        rw [Function.iterate_succ_apply] at hfix
        exact ih k (m.canonStep r) (by omega) hfix

theorem canonLoop_eq_iterate (m : Model) :
    ∀ (n : Nat) (r : Role), ∃ k, k ≤ n ∧ m.canonLoop n r = m.canonStep^[k] r := by
  intro n
  induction n with
  | zero => intro r; exact ⟨0, Nat.le_refl 0, rfl⟩
  | succ n ih =>
    intro r
    unfold Model.canonLoop
    by_cases hstep : m.canonStep r = r
    · exact ⟨0, Nat.zero_le _, by simp [hstep]⟩
    · simp only [hstep, if_false]
      obtain ⟨k, hk, heq⟩ := ih (m.canonStep r)
      exact ⟨k + 1, by omega, by rw [Function.iterate_succ_apply]; exact heq⟩

theorem canonLoop_reaches_fixed (m : Model) (r : Role) :
    m.canonStep (m.canonLoop (m.canonFuel r) r) =
      m.canonLoop (m.canonFuel r) r := by
  obtain ⟨k, hk, hfix⟩ := reaches_fixed_bound m r.data.length r (Nat.le_refl _)
  exact canonLoop_fixed_result m (m.canonFuel r) k r
    (by unfold Model.canonFuel; omega) hfix

theorem canonicalizeInversion_idem (m : Model) (r : Role) :
    m.canonicalizeInversion (m.canonicalizeInversion r) =
      m.canonicalizeInversion r := by
  by_cases h : m.hasRoleExact r = true
  · have h1 : m.canonicalizeInversion r = r := by
      unfold Model.canonicalizeInversion
      rw [if_pos h]
    rw [h1]
    exact h1
  · have h1 : m.canonicalizeInversion r = m.canonLoop (m.canonFuel r) r := by
      unfold Model.canonicalizeInversion
      rw [if_neg h]
    rw [h1]
    set s := m.canonLoop (m.canonFuel r) r with hs
    have hfix : m.canonStep s = s := by
      rw [hs]
      exact canonLoop_reaches_fixed m r
    unfold Model.canonicalizeInversion
    by_cases h2 : m.hasRoleExact s = true
    · rw [if_pos h2]
    · rw [if_neg h2]
      exact canonLoop_of_fixed m s hfix _

/- ------------------------------------------------------------------ -/
/- The colon prefix is preserved by inversion and canonicalization.    -/
/- ------------------------------------------------------------------ -/

theorem startsColon_iff (s : String) :
    startsColon s = true ↔ ∃ t, s.data = ':' :: t := by
  unfold startsColon
  cases hd : s.data with
  | nil => simp
  | cons c t =>
    simp only [beq_iff_eq]
    constructor
    · intro h; exact ⟨t, by rw [h]⟩
    · rintro ⟨t', ht'⟩
      exact (List.cons.injEq _ _ _ _ ▸ ht').1

theorem startsColon_invert_role (m : Model) (r : Role)
    (h : startsColon r = true) : startsColon (m.invert_role r) = true := by
  obtain ⟨t, ht⟩ := (startsColon_iff r).mp h
  unfold Model.invert_role
  by_cases hc : (!m.hasRoleExact r && endsOf r) = true
  · rw [if_pos hc]
    have hends : endsOf r = true := (Bool.and_eq_true _ _).mp hc |>.2
    obtain ⟨u, hu⟩ := (endsOf_iff r).mp hends
    rw [startsColon_iff]
    cases u with
    | nil =>
      exfalso
      rw [ht] at hu
      simp at hu
    | cons c u' =>
      have hc' : c = ':' := by
        rw [ht] at hu
        exact ((List.cons.injEq _ _ _ _ ▸ hu).1).symm
      refine ⟨u', ?_⟩
      show (r.data.take (r.data.length - 3)) = ':' :: u'
      rw [hu, hc']
      have hlen : (':' :: u' ++ ['-', 'o', 'f'] : List Char).length - 3 =
          (':' :: u').length := by simp
      rw [hlen]
      exact List.take_left _ _
  · rw [if_neg hc]
    rw [startsColon_iff]
    exact ⟨t ++ inversionSuffix.data, by rw [String.data_append, ht]; rfl⟩

theorem startsColon_canonLoop (m : Model) :
    ∀ (n : Nat) (r : Role), startsColon r = true →
    startsColon (m.canonLoop n r) = true := by
  intro n
  induction n with
  | zero => intro r h; exact h
  | succ n ih =>
    intro r h
    unfold Model.canonLoop
    by_cases hstep : m.canonStep r = r
    · simpa [hstep] using h
    · simp only [hstep, if_false]
      exact ih _ (startsColon_invert_role m _ (startsColon_invert_role m _ h))

theorem startsColon_canonicalizeInversion (m : Model) (r : Role)
    (h : startsColon r = true) :
    startsColon (m.canonicalizeInversion r) = true := by
  unfold Model.canonicalizeInversion
  by_cases hh : m.hasRoleExact r = true
  · simpa [hh] using h
  · rw [if_neg (by simpa using hh)]
    exact startsColon_canonLoop m _ r h

theorem startsColon_ensureColon (s : String) :
    startsColon (ensureColon s) = true := by
  unfold ensureColon
  by_cases h : startsColon s = true
  · simp [h]
  · rw [if_neg (by simpa using h)]
    rw [startsColon_iff]
    exact ⟨s.data, rfl⟩

theorem ensureColon_of_startsColon (s : String) (h : startsColon s = true) :
    ensureColon s = s := by
  unfold ensureColon
  rw [if_pos h]

/- ------------------------------------------------------------------ -/
/- Association-list lookups.                                           -/
/- ------------------------------------------------------------------ -/

theorem lookup_mem {β : Type} (a : String) (b : β) :
    ∀ (l : List (String × β)), List.lookup a l = some b → (a, b) ∈ l := by
  intro l
  induction l with
  | nil => intro h; cases h
  | cons p l ih =>
    intro h
    rcases p with ⟨k, v⟩
    rw [List.lookup] at h
    cases he : (a == k) with
    | true =>
      rw [he] at h
      have h1 : a = k := by simpa using he
      have h2 : some v = some b := h
      have h3 : v = b := by simpa using h2
      subst h1
      subst h3
      exact List.mem_cons_self _ _
    | false =>
      rw [he] at h
      have h2 : List.lookup a l = some b := h
      exact List.mem_cons_of_mem _ (ih h2)

theorem lookup_cons_eq {β : Type} (r k : String) (b : β)
    (l : List (String × β)) (h : r = k) :
    List.lookup r ((k, b) :: l) = some b := by
  rw [List.lookup]
  have hb : (r == k) = true := by simpa using h
  rw [hb]

theorem lookup_cons_ne {β : Type} (r k : String) (b : β)
    (l : List (String × β)) (h : ¬r = k) :
    List.lookup r ((k, b) :: l) = List.lookup r l := by
  rw [List.lookup]
  have hb : (r == k) = false := by simpa using h
  rw [hb]

theorem lookup_addReif (role : Role) (v : Constant × Role × Role) (r : Role) :
    ∀ acc, List.lookup r (addReif acc role v) =
      if r = role then some (((List.lookup r acc).getD []) ++ [v])
      else List.lookup r acc := by
  intro acc
  induction acc with
  | nil =>
    by_cases h : r = role
    · rw [if_pos h]
      unfold addReif
      rw [lookup_cons_eq r role [v] [] h]
      rfl
    · rw [if_neg h]
      unfold addReif
      rw [lookup_cons_ne r role [v] [] h]
  | cons p rest ih =>
    rcases p with ⟨k, vs⟩
    unfold addReif
    by_cases hk : k = role
    · rw [if_pos hk]
      subst hk
      by_cases hr : r = k
      · rw [if_pos hr, lookup_cons_eq r k (vs ++ [v]) rest hr,
          lookup_cons_eq r k vs rest hr]
        rfl
      · rw [if_neg hr, lookup_cons_ne r k (vs ++ [v]) rest hr,
          lookup_cons_ne r k vs rest hr]
    · rw [if_neg hk]
      by_cases hr : r = k
      · have hrole : ¬r = role := by
          rw [hr]
          exact hk
        rw [if_neg hrole, lookup_cons_eq r k vs _ hr, lookup_cons_eq r k vs rest hr]
      · rw [lookup_cons_ne r k vs _ hr, lookup_cons_ne r k vs rest hr, ih]

theorem lookup_buildLoop (r : Role) :
    ∀ (l : List (Role × Constant × Role × Role))
      (acc : List (Role × List (Constant × Role × Role))),
    List.lookup r (l.foldl (fun acc q => addReif acc q.1 q.2) acc) =
      (if (l.filter (fun q => q.1 == r)) = [] then List.lookup r acc
       else some (((List.lookup r acc).getD []) ++
         (l.filter (fun q => q.1 == r)).map (fun q => q.2))) := by
  intro l
  induction l with
  | nil => intro acc; simp
  | cons q l ih =>
    intro acc
    rw [List.foldl_cons, ih (addReif acc q.1 q.2)]
    by_cases hq : q.1 = r
    · have hfc : (q :: l).filter (fun q => q.1 == r) =
          q :: l.filter (fun q => q.1 == r) :=
        List.filter_cons_of_pos (by simpa using hq)
      rw [hfc, lookup_addReif q.1 q.2 r acc, if_pos hq.symm]
      by_cases hl : l.filter (fun q => q.1 == r) = []
      · rw [if_pos hl]
        simp [hl]
      · rw [if_neg hl]
        have hcons : q :: l.filter (fun q => q.1 == r) ≠ [] := by simp
        rw [if_neg hcons]
        simp
    · have hfc : (q :: l).filter (fun q => q.1 == r) =
          l.filter (fun q => q.1 == r) :=
        List.filter_cons_of_neg (by simpa using hq)
      have haddr : List.lookup r (addReif acc q.1 q.2) = List.lookup r acc := by
        rw [lookup_addReif q.1 q.2 r acc]
        exact if_neg (fun h => hq h.symm)
      rw [hfc, haddr]

theorem lookup_buildReifs (l : List (Role × Constant × Role × Role)) (r : Role) :
    List.lookup r (buildReifs l) =
      (if (l.filter (fun q => q.1 == r)) = [] then none
       else some ((l.filter (fun q => q.1 == r)).map (fun q => q.2))) := by
  unfold buildReifs
  rw [lookup_buildLoop r l []]
  rfl

theorem reify_lookup_none (m : Model) (x r y : String)
    (h : List.lookup r m.reifications = none) :
    m.reify (x, r, y) =
      Except.error (PenmanError.modelError (("'") ++ r ++ ("' cannot be reified"))) := by
  simp only [Model.reify]
  rw [h]

theorem reify_lookup_cons (m : Model) (x r y : String)
    (lab src tgt : String) (tl : List (Constant × Role × Role))
    (h : List.lookup r m.reifications = some ((lab, src, tgt) :: tl)) :
    m.reify (x, r, y) =
      Except.ok [(x, m.invert_role src, ("_")),
                 (("_"), m.nodetype_role, lab),
                 (("_"), tgt, y)] := by
  simp only [Model.reify]
  rw [h]

/- ------------------------------------------------------------------ -/
/- The claims.                                                         -/
/- ------------------------------------------------------------------ -/

/-- C1 (counterexample): `canonicalize_role` is not idempotent for every
role of every model: with `:a` a registered role and the chained
normalization table `:a ↦ :b`, `:b ↦ :c`, one application maps `:a` to
`:b` but the second application maps `:b` on to `:c`. -/
theorem c1_canonicalize_role_idem_counterexample :
    chainNormModel.canonicalize_role (chainNormModel.canonicalize_role (":a")) ≠
      chainNormModel.canonicalize_role (":a") := by decide

/-- C1 (amended): `canonicalize_role` is idempotent on every role — in
particular on every role known to the registry — provided every value of
the normalization table is itself canonical (a fixed point of
`canonicalize_role`); this holds in particular whenever the
normalization table is empty. -/
theorem c1_canonicalize_role_idem_of_canonical_norms (m : Model) (r : Role)
    (h : ∀ p ∈ m.normalizations, m.canonicalize_role p.2 = p.2) :
    m.canonicalize_role (m.canonicalize_role r) = m.canonicalize_role r := by
  set c := m.canonicalizeInversion (ensureColon r) with hc
  cases hl : List.lookup c m.normalizations with
  | some v =>
    have h1 : m.canonicalize_role r = v := by
      unfold Model.canonicalize_role
      rw [← hc, hl]
    rw [h1]
    exact h (c, v) (lookup_mem c v _ hl)
  | none =>
    have h1 : m.canonicalize_role r = c := by
      unfold Model.canonicalize_role
      rw [← hc, hl]
    rw [h1]
    have hsc : startsColon c = true := by
      rw [hc]
      exact startsColon_canonicalizeInversion m _ (startsColon_ensureColon r)
    have hec : ensureColon c = c := ensureColon_of_startsColon c hsc
    have hci : m.canonicalizeInversion c = c := by
      rw [hc]
      exact canonicalizeInversion_idem m (ensureColon r)
    unfold Model.canonicalize_role
    rw [hec, hci, hl]

/-- C1 (witness): the default model has an empty normalization table, so
the amended idempotence applies to it, here at the stacked role
`:ARG0-of-of`. -/
theorem c1_canonicalize_role_idem_witness :
    defaultModel.canonicalize_role
        (defaultModel.canonicalize_role (":ARG0-of-of")) =
      defaultModel.canonicalize_role (":ARG0-of-of") :=
  c1_canonicalize_role_idem_of_canonical_norms defaultModel (":ARG0-of-of")
    (fun p hp => absurd hp (List.not_mem_nil p))

/-- C2 (counterexample): `invert` is not an involution on every triple:
under the default model the doubly suffixed role `:ARG0-of-of` is
stripped once by the first inversion and stripped again by the second,
so the round trip returns `(a, :ARG0, b)` instead of the original. -/
theorem c2_invert_involution_counterexample :
    defaultModel.invert (defaultModel.invert (("a"), (":ARG0-of-of"), ("b"))) ≠
      (("a"), (":ARG0-of-of"), ("b")) := by decide

/-- C2 (amended): `invert (invert t) = t` holds for every triple whose
role round-trips under `invert_role`: when the role is inverted its
stripped form must not itself be inverted, and when it is not inverted
the role with the suffix appended must not be exactly known. -/
theorem c2_invert_involution_restricted (m : Model) (t : BasicTriple)
    (h1 : m.is_role_inverted t.2.1 = true →
      m.is_role_inverted (stripOf t.2.1) = false)
    (h2 : m.is_role_inverted t.2.1 = false →
      m.hasRoleExact (t.2.1 ++ inversionSuffix) = false) :
    m.invert (m.invert t) = t := by
  rcases t with ⟨x, r, y⟩
  show (x, m.invert_role (m.invert_role r), y) = (x, r, y)
  have hstep : m.canonStep r = r := by
    cases hinv : m.is_role_inverted r with
    | true => exact canonStep_caseB m r hinv (h1 hinv)
    | false => exact canonStep_caseC m r hinv (h2 hinv)
  have hrr : m.invert_role (m.invert_role r) = r := hstep
  rw [hrr]

/-- C2 (witness): under the default model the role `:ARG0` satisfies the
round-trip condition, so inverting the triple twice restores it. -/
theorem c2_invert_involution_witness :
    defaultModel.invert (defaultModel.invert (("a"), (":ARG0"), ("b"))) =
      (("a"), (":ARG0"), ("b")) :=
  c2_invert_involution_restricted defaultModel (("a"), (":ARG0"), ("b"))
    (by decide) (by decide)

/-- C3: for a model built by the constructor, a role that is an exact key
of the reification table is exactly a role with a registered rule; for
such a role, `is_reifiable` holds and `reify` returns exactly the three
triples built from the first rule registered for it — source with the
inverted source role to the placeholder, placeholder typed by the rule
label, placeholder to target under the target role; for any other role
`is_reifiable` is false and `reify` raises a `ModelError`. -/
theorem c3_reify_first_rule (ti : Identifier) (tr nr : Role)
    (roles : List Role) (norms : List (Role × Role))
    (reifs : List (Role × Constant × Role × Role))
    (x r y : String) (m : Model)
    (hm : m = mkModel ti tr nr roles norms reifs) :
    ((List.lookup r m.reifications).isSome = true ↔
      (firstRule reifs r).isSome = true)
    ∧ (∀ rule : Constant × Role × Role, firstRule reifs r = some rule →
        m.is_reifiable (x, r, y) = true ∧
        m.reify (x, r, y) = Except.ok
          [(x, m.invert_role rule.2.1, ("_")),
           (("_"), m.nodetype_role, rule.1),
           (("_"), rule.2.2, y)])
    ∧ (firstRule reifs r = none →
        m.is_reifiable (x, r, y) = false ∧
        m.reify (x, r, y) = Except.error
          (PenmanError.modelError (("'") ++ r ++ ("' cannot be reified")))) := by
  subst hm
  have hre : (mkModel ti tr nr roles norms reifs).reifications =
      buildReifs reifs := rfl
  have hlk := lookup_buildReifs reifs r
  refine ⟨?_, ?_, ?_⟩
  · -- a key of the table exactly when a rule is registered
    rw [hre, hlk]
    unfold firstRule
    by_cases hfe : reifs.filter (fun q => q.1 == r) = []
    · rw [if_pos hfe, hfe]
      simp
    · rw [if_neg hfe]
      rcases List.exists_cons_of_ne_nil hfe with ⟨q0, tl, hq⟩
      rw [hq]
      simp
  · intro rule hr
    cases hq : reifs.filter (fun q => q.1 == r) with
    | nil =>
      exfalso
      unfold firstRule at hr
      rw [hq] at hr
      simp at hr
    | cons q0 tl =>
      have hrule : q0.2 = rule := by
        unfold firstRule at hr
        rw [hq] at hr
        simpa using hr
      have hne : reifs.filter (fun q => q.1 == r) ≠ [] := by
        rw [hq]
        simp
      have hlk2 : List.lookup r (buildReifs reifs) =
          some (q0.2 :: tl.map (fun q => q.2)) := by
        rw [hlk, if_neg hne, hq]
        rfl
      rcases hq02 : q0.2 with ⟨lab, src, tgt⟩
      constructor
      · show (List.lookup r (buildReifs reifs)).isSome = true
        rw [hlk2]
        rfl
      · rw [← hrule, hq02]
        exact reify_lookup_cons _ x r y lab src tgt _ (by rw [hre, hlk2, hq02])
  · intro hr
    have hfe : reifs.filter (fun q => q.1 == r) = [] := by
      unfold firstRule at hr
      by_cases h0 : reifs.filter (fun q => q.1 == r) = []
      · exact h0
      · exfalso
        rcases List.exists_cons_of_ne_nil h0 with ⟨q0, tl, hq⟩
        rw [hq] at hr
        simp at hr
    have hlk0 : List.lookup r (buildReifs reifs) = none := by
      rw [hlk, if_pos hfe]
    constructor
    · show (List.lookup r (buildReifs reifs)).isSome = false
      rw [hlk0]
      rfl
    · exact reify_lookup_none _ x r y hlk0

/-- C3 (witness): in a model with rules `(:r, lab, :s, :t)` and
`(:r, lab2, :s2, :t2)`, reifying `(x, :r, y)` uses the first rule, and a
role without a rule is not reifiable. -/
theorem c3_reify_witness :
    reifModel.reify (("x"), (":r"), ("y")) =
      Except.ok [(("x"), (":s-of"), ("_")),
                 (("_"), (":instance"), ("lab")),
                 (("_"), (":t"), ("y"))]
    ∧ reifModel.is_reifiable (("x"), (":q"), ("y")) = false := by
  constructor
  · have h := (c3_reify_first_rule ("top") (":TOP") (":instance") [] []
      [((":r"), ("lab"), (":s"), (":t")), ((":r"), ("lab2"), (":s2"), (":t2"))]
      ("x") (":r") ("y") reifModel rfl).2.1 ((("lab"), (":s"), (":t"))) (by decide)
    exact h.2.trans (congrArg Except.ok (by decide))
  · exact ((c3_reify_first_rule ("top") (":TOP") (":instance") [] []
      [((":r"), ("lab"), (":s"), (":t")), ((":r"), ("lab2"), (":s2"), (":t2"))]
      ("x") (":q") ("y") reifModel rfl).2.2 (by decide)).1

/-- C4: every role-model operation of the embedding is a total function,
and in particular the `while` loop of `_canonicalize_inversion` — the
iteration of the double inversion `canonStep` — reaches a fixed point
after finitely many steps from every role under every model, and the
fuelled loop of the embedding computes exactly such an iterate. -/
theorem c4_inversion_loop_reaches_fixed_point (m : Model) (r : Role) :
    ∃ n : Nat, m.canonStep (m.canonStep^[n] r) = m.canonStep^[n] r ∧
      m.canonLoop (m.canonFuel r) r = m.canonStep^[n] r := by
  obtain ⟨k, hk, heq⟩ := canonLoop_eq_iterate m (m.canonFuel r) r
  refine ⟨k, ?_, heq⟩
  rw [← heq]
  exact canonLoop_reaches_fixed m r

/-- C5: the known roles are exactly the registry keys together with the
top role and the node-type role, by exact string match, and `has_role`
holds exactly on a known role or on a role carrying the inversion suffix
whose stripped form is known. -/
theorem c5_has_role_known_set (m : Model) (r : Role) :
    m.has_role r = true ↔
      ((r ∈ m.roles ∨ r = m.top_role ∨ r = m.nodetype_role)
       ∨ (endsOf r = true ∧
          (stripOf r ∈ m.roles ∨ stripOf r = m.top_role ∨
           stripOf r = m.nodetype_role))) := by
  unfold Model.has_role Model.hasRoleExact Model.knownRoles
  simp [List.mem_append]

/-- C6: `deinvert` applies `invert` exactly when the role is inverted and
leaves the triple alone otherwise, and a role is inverted exactly when it
is not exactly known and carries the inversion suffix (an exactly
registered suffix-shaped role is not inverted). -/
theorem c6_deinvert_spec (m : Model) (t : BasicTriple) :
    (m.is_role_inverted t.2.1 = true → m.deinvert t = m.invert t)
    ∧ (m.is_role_inverted t.2.1 = false → m.deinvert t = t)
    ∧ (m.is_role_inverted t.2.1 = true ↔
        (m.hasRoleExact t.2.1 = false ∧ endsOf t.2.1 = true)) := by
  refine ⟨?_, ?_, ?_⟩
  · intro h
    unfold Model.deinvert
    rw [h]
    simp
  · intro h
    unfold Model.deinvert
    rw [h]
    simp
  · unfold Model.is_role_inverted
    simp

/-- C6 (witness): under the default model `:ARG0-of` is inverted and is
deinverted by `deinvert`, while `:ARG0` is left alone. -/
theorem c6_deinvert_witness :
    defaultModel.deinvert (("a"), (":ARG0-of"), ("b")) =
      defaultModel.invert (("a"), (":ARG0-of"), ("b"))
    ∧ defaultModel.deinvert (("a"), (":ARG0"), ("b")) =
      (("a"), (":ARG0"), ("b")) :=
  ⟨(c6_deinvert_spec defaultModel (("a"), (":ARG0-of"), ("b"))).1 (by decide),
   (c6_deinvert_spec defaultModel (("a"), (":ARG0"), ("b"))).2.1 (by decide)⟩

/-- C7: tokenizing a sequence of lines yields exactly the token sequence
of the single string obtained by joining the lines with one newline
between each pair, under either grammar. -/
theorem c7_tokenize_lines_joined (g : LexGrammar) (ls : List String) :
    tokenize (.lines ls) g =
      tokenize (.str (String.intercalate ("\n") ls)) g := rfl

/-- C8: no query or transform operation changes the model: in the
state-passing embedding of every method, the post-state equals the input
model — for `reify` on both the success and the error path. -/
theorem c8_operations_preserve_model_state (m : Model) (r : Role)
    (t : BasicTriple) :
    (m.has_roleS r).2 = m ∧ (m.is_role_invertedS r).2 = m
    ∧ (m.invert_roleS r).2 = m ∧ (m.invertS t).2 = m
    ∧ (m.deinvertS t).2 = m ∧ (m.canonicalize_roleS r).2 = m
    ∧ (m.canonicalizeS t).2 = m ∧ (m.is_reifiableS t).2 = m
    ∧ (m.reifyS t).2 = m :=
  ⟨rfl, rfl, rfl, rfl, rfl, rfl, rfl, rfl, rfl⟩

/-- C9: tokenizing the empty string yields the empty token sequence under
both the graph-notation grammar and the triple-notation grammar. -/
theorem c9_tokenize_empty_both_grammars :
    tokenize (.str ("")) LexGrammar.penman = Except.ok []
    ∧ tokenize (.str ("")) LexGrammar.triples = Except.ok [] :=
  ⟨rfl, rfl⟩

/-- C10: a single `invert_role` never leaves the set of roles accepted by
`has_role`: if the model has a role, it also has its inversion. -/
theorem c10_has_role_closed_under_invert_role (m : Model) (r : Role)
    (h : m.has_role r = true) : m.has_role (m.invert_role r) = true := by
  unfold Model.invert_role
  by_cases hc : (!m.hasRoleExact r && endsOf r) = true
  · rw [if_pos hc]
    have hnh : m.hasRoleExact r = false := by
      rcases (Bool.and_eq_true _ _).mp hc with ⟨h1, _⟩
      simpa using h1
    unfold Model.has_role at h
    rw [hnh] at h
    simp at h
    unfold Model.has_role
    rw [h.2]
    simp
  · have hhr : m.hasRoleExact r = true := by
      cases hre : m.hasRoleExact r with
      | true => rfl
      | false =>
        exfalso
        unfold Model.has_role at h
        rw [hre] at h
        simp at h
        apply hc
        rw [hre]
        simp [h.1]
    rw [if_neg hc]
    unfold Model.has_role
    rw [endsOf_append, stripOf_append, hhr]
    simp

/-- C10 (witness): the default model has `:TOP`, and it also has the
inversion `:TOP-of`. -/
theorem c10_has_role_closed_witness :
    defaultModel.has_role (":TOP") = true
    ∧ defaultModel.has_role (defaultModel.invert_role (":TOP")) = true :=
  ⟨by decide,
   c10_has_role_closed_under_invert_role defaultModel (":TOP") (by decide)⟩

/-- Sanity: the graph-notation example of the test suite lexes to the
documented token types. -/
theorem lex_example_graph :
    (lexStr LexGrammar.penman ("(a / alpha)")).map
        (fun ts => ts.map Token.type) =
      Except.ok [TokenType.LPAREN, TokenType.SYMBOL, TokenType.SLASH,
                 TokenType.SYMBOL, TokenType.RPAREN] := rfl

/-- Sanity: the triple-notation example of the test suite lexes to the
documented token types. -/
theorem lex_example_triples :
    (lexStr LexGrammar.triples ("instance(a, alpha)")).map
        (fun ts => ts.map Token.type) =
      Except.ok [TokenType.SYMBOL, TokenType.LPAREN, TokenType.SYMBOL,
                 TokenType.COMMA, TokenType.SYMBOL, TokenType.RPAREN] := rfl
